import Mathlib

set_option autoImplicit false

namespace UltraRename

/-- Maximum admitted size of a single file in bytes, from
the constant in FileRenamer.tsx: 100 MiB. -/
def MAX_FILE_SIZE : Nat := 100 * 1024 * 1024

/-- Maximum number of records held at once, from the constant in
FileRenamer.tsx. -/
def MAX_FILES : Nat := 20

/-- Character-list leading-segment test: the semantics of the JavaScript
startsWith used on MIME type strings in FileRenamer.tsx. -/
def charsPfx : List Char → List Char → Bool
  | [], _ => true
  | _ :: _, [] => false
  | a :: p, b :: s => a == b && charsPfx p s

/-- JavaScript startsWith on strings. -/
def jsStartsWith (s pat : String) : Bool := charsPfx pat.toList s.toList

/-- Occurrence of the pattern anywhere in the character list: the semantics of
the JavaScript includes used on MIME type strings in FileRenamer.tsx. -/
def charsContain (p : List Char) : List Char → Bool
  | [] => p.isEmpty
  | c :: rest => charsPfx p (c :: rest) || charsContain p rest

/-- JavaScript includes on strings. -/
def jsIncludes (s pat : String) : Bool := charsContain pat.toList s.toList

/-- Splitting a character list at every occurrence of the separator: the
semantics of the JavaScript split with a one-character separator, which yields
one (possibly empty) piece more than the number of separators. -/
def splitChars (sep : Char) : List Char → List (List Char)
  | [] => [[]]
  | c :: rest =>
    if c = sep then [] :: splitChars sep rest
    else
      match splitChars sep rest with
      | [] => [[c]]
      | h :: t => (c :: h) :: t

/-- Extension extraction used by handleRename and handleDownload, translating
the source pattern of splitting the name on dots and popping the last piece,
with an or-else empty string: the last dot-separated component of the name
(which is the whole name when it contains no dot). -/
def extOf (origName : String) : String :=
  String.mk ((splitChars '.' origName.toList).getLastD [])

/-- The assigned-name formula of handleRename and handleDownload: base name,
underscore, one-based index, dot, extension of the original name. -/
def mkNewName (base : String) (i : Nat) (origName : String) : String :=
  base ++ "_" ++ Nat.repr (i + 1) ++ "." ++ extOf origName

/-- One raw input file as delivered by the drop event: the fields of the
browser File object that the component reads. The content field is the byte
payload behind the asynchronous byte read; none models a read that fails. -/
structure RawFile where
  name : String
  size : Nat
  type : String
  lastModified : Nat
  content : Option (List Nat)
deriving DecidableEq

/-- A normalized record of the working list (FileWithPreview in the source):
the raw file fields plus the transient preview flag and the optional assigned
name. -/
structure FileRecord where
  name : String
  size : Nat
  type : String
  lastModified : Nat
  content : Option (List Nat)
  preview : Bool
  newName : Option String
deriving DecidableEq

/-- MIME type resolution getFileType from FileRenamer.tsx: the browser
supplied type when non-empty, otherwise a fixed extension lookup on the
lowercased last name component, falling back to a generic binary type. -/
def getFileType (f : RawFile) : String :=
  if f.type = "" then
    let ext := (extOf f.name).toLower
    match ext with
    | "jpg" | "jpeg" | "png" | "gif" => "image/" ++ ext
    | "mp4" | "webm" => "video/" ++ ext
    | "mp3" | "wav" => "audio/" ++ ext
    | "pdf" => "application/pdf"
    | "doc" | "docx" => "application/msword"
    | "xls" | "xlsx" => "application/vnd.ms-excel"
    | _ => "application/octet-stream"
  else f.type

/-- Normalization of an accepted raw file into a working record, from the body
of onDrop: resolved type, preview object URL attached only for image types, no
assigned name yet. -/
def normalizeFile (f : RawFile) : FileRecord :=
  { name := f.name, size := f.size, type := getFileType f,
    lastModified := f.lastModified, content := f.content,
    preview := jsStartsWith (getFileType f) "image/", newName := none }

/-- The count-limit error message set by onDrop. -/
def countLimitMsg : String :=
  "Cannot add more than 20 files at a time. Please process current files first."

/-- The size-limit error message set by onDrop, naming the oversized files. -/
def sizeLimitMsg (oversized : List RawFile) : String :=
  "Files exceeding 100MB limit: " ++
    String.intercalate ", " (oversized.map (fun f => f.name))

/-- The onDrop callback. The captured argument is the value of the files state
that the useCallback closure captured: the dependency array of the callback is
empty, so in the running component captured is the list from the first render,
the empty list, and never the current list. The current argument is the live
list that the functional setFiles update receives. Returns the new record list
and the error banner value. When no file is oversized the batch is admitted
unfiltered and the error banner is cleared; when some are oversized they are
filtered out, the remainder is admitted, and the banner names the oversized
files. -/
def onDrop (captured current : List FileRecord) (accepted : List RawFile) :
    List FileRecord × Option String :=
  if MAX_FILES < captured.length + accepted.length then
    (current, some countLimitMsg)
  else
    let oversized := accepted.filter (fun f => decide (MAX_FILE_SIZE < f.size))
    if oversized.isEmpty then
      (current ++ accepted.map normalizeFile, none)
    else
      let kept := accepted.filter (fun f => decide (f.size ≤ MAX_FILE_SIZE))
      if kept.isEmpty then (current, some (sizeLimitMsg oversized))
      else (current ++ kept.map normalizeFile, some (sizeLimitMsg oversized))

/-- The five type groups computed by the fileGroups memo. -/
structure FileGroups where
  images : List FileRecord
  videos : List FileRecord
  audio : List FileRecord
  documents : List FileRecord
  others : List FileRecord

/-- Membership test of the images group. -/
def isImageType (t : String) : Bool := jsStartsWith t "image/"

/-- Membership test of the videos group. -/
def isVideoType (t : String) : Bool := jsStartsWith t "video/"

/-- Membership test of the audio group. -/
def isAudioType (t : String) : Bool := jsStartsWith t "audio/"

/-- Membership test of the documents group. -/
def isDocumentType (t : String) : Bool :=
  jsIncludes t "pdf" || jsIncludes t "word" || jsIncludes t "excel" ||
    jsIncludes t "text/plain"

/-- Membership test of the others group: the negation of the four tests
above, exactly as written in the source. -/
def isOtherType (t : String) : Bool :=
  !isImageType t && !isVideoType t && !isAudioType t && !isDocumentType t

/-- The fileGroups memo: five independent filters over the record list. -/
def fileGroups (files : List FileRecord) : FileGroups :=
  { images := files.filter (fun f => isImageType f.type),
    videos := files.filter (fun f => isVideoType f.type),
    audio := files.filter (fun f => isAudioType f.type),
    documents := files.filter (fun f => isDocumentType f.type),
    others := files.filter (fun f => isOtherType f.type) }

/-- Number of the five groups that contain a given record. -/
def groupsContaining (g : FileGroups) (r : FileRecord) : Nat :=
  (if r ∈ g.images then 1 else 0) + (if r ∈ g.videos then 1 else 0) +
    (if r ∈ g.audio then 1 else 0) + (if r ∈ g.documents then 1 else 0) +
    (if r ∈ g.others then 1 else 0)

/-- Lift a predicate on MIME types to records. The active filter
(filteredFiles in the source) is such a predicate: the constant true predicate
for the all selection, a group predicate otherwise. -/
def byType (pred : String → Bool) (f : FileRecord) : Bool := pred f.type

/-- Record update performed on the selected records by handleRename. -/
def renameUpdate (base : String) (i : Nat) (f : FileRecord) : FileRecord :=
  { f with newName := some (mkNewName base i f.name) }

/-- The record-list pass of handleRename. The source computes the position of
each selected record with indexOf on the filtered selection under JavaScript
reference equality, which is the position of the record among the records
matching the active filter; the walk carries that position as a counter.
Records outside the filter are returned unchanged. -/
def renameWalk (base : String) (pred : String → Bool) :
    List FileRecord → Nat → List FileRecord
  | [], _ => []
  | f :: rest, c =>
    if pred f.type then renameUpdate base c f :: renameWalk base pred rest (c + 1)
    else f :: renameWalk base pred rest c

/-- Positional assignment over an already filtered selection: the shape of the
map over the filtered selection in handleRename. -/
def assignFrom (base : String) : Nat → List FileRecord → List FileRecord
  | _, [] => []
  | c, f :: rest => renameUpdate base c f :: assignFrom base (c + 1) rest

/-- One ledger entry, HistoryEntry in the source. -/
structure HistoryEntry where
  timestamp : Nat
  oldName : String
  newName : String
  fileType : String
deriving DecidableEq

/-- The history entries built by handleRename for the filtered selection, in
selection order. -/
def entriesFrom (base : String) (now : Nat) :
    Nat → List FileRecord → List HistoryEntry
  | _, [] => []
  | c, f :: rest =>
    { timestamp := now, oldName := f.name, newName := mkNewName base c f.name,
      fileType := f.type } :: entriesFrom base now (c + 1) rest

/-- The handleRename operation: validation of the base name and of the
filtered selection, the ledger update that prepends the new entries to the
first 49 retained previous entries, and the assigned-name pass over the record
list. Returns the new record list and the new history ledger; a failed
validation leaves both unchanged. -/
def handleRename (files : List FileRecord) (pred : String → Bool)
    (base : String) (prev : List HistoryEntry) (now : Nat) :
    List FileRecord × List HistoryEntry :=
  if base = "" then (files, prev)
  else if (files.filter (byType pred)).isEmpty then (files, prev)
  else
    (renameWalk base pred files 0,
      entriesFrom base now 0 (files.filter (byType pred)) ++ prev.take 49)

/-- The name under which a record enters the archive, from handleDownload: the
assigned name when present, with the JavaScript or-else treating the empty
string as absent, otherwise the assigned-name formula at the record position
in the filtered selection. -/
def archiveName (base : String) (i : Nat) (f : FileRecord) : String :=
  match f.newName with
  | some n => if n = "" then mkNewName base i f.name else n
  | none => mkNewName base i f.name

/-- Adding one entry to the archive object: the archive library stores entries
keyed by name, so an entry added under an existing name replaces the stored
bytes in place. -/
def zipFile (z : List (String × List Nat)) (n : String) (c : List Nat) :
    List (String × List Nat) :=
  match z with
  | [] => [(n, c)]
  | (m, d) :: rest => if m = n then (m, c) :: rest else (m, d) :: zipFile rest n c

/-- Byte collection loop of handleDownload: each record of the filtered
selection is read and added to the archive under its archive name; a failing
read aborts the whole build with an error naming the file. -/
def buildZip (base : String) :
    List FileRecord → Nat → List (String × List Nat) →
      Except String (List (String × List Nat))
  | [], _, acc => Except.ok acc
  | f :: rest, i, acc =>
    match f.content with
    | none => Except.error ("Failed to process file " ++ f.name)
    | some bytes =>
      buildZip base rest (i + 1) (zipFile acc (archiveName base i f) bytes)

/-- The archive entries as a plain positional list: one entry per selected
record, named by archiveName, carrying the record bytes. -/
def zipEntriesSpec (base : String) :
    Nat → List FileRecord → List (String × List Nat)
  | _, [] => []
  | i, f :: rest =>
    (archiveName base i f, f.content.getD []) :: zipEntriesSpec base (i + 1) rest

/-- The handleDownload operation restricted to its record-list and archive
effects: validation, then the archive build over the filtered selection. The
record list is returned untouched in every branch because the handler never
writes the files state. -/
def handleDownload (files : List FileRecord) (pred : String → Bool)
    (base : String) :
    List FileRecord × Except String (List (String × List Nat)) :=
  if base = "" then
    (files, Except.error "Please enter a base name for the files.")
  else if (files.filter (byType pred)).isEmpty then
    (files, Except.error "Please add some files first.")
  else (files, buildZip base (files.filter (byType pred)) 0 [])

/-- The persisted analytics snapshot, Analytics in the source. -/
structure Analytics where
  weekStartDate : String
  totalFiles : Nat
  totalRenames : Nat
  fileTypes : List (String × Nat)
  averageFileSize : Nat
  totalDownloads : Nat
deriving DecidableEq

/-- Startup history load. The outer Option is the stored-value lookup result
(none means the key is absent); the inner Option is the outcome of parsing the
stored string (none means the parse throws). The whole body is wrapped in a
try/catch in the source, so a throwing parse is swallowed and the initial
empty ledger is kept. -/
def loadHistory (stored : Option (Option (List HistoryEntry))) :
    List HistoryEntry :=
  match stored with
  | none => []
  | some none => []
  | some (some h) => h

/-- Startup analytics load. Same encoding of the lookup and of the parse
outcome as in loadHistory, but the source effect body has no try/catch: a
throwing parse propagates out of the effect, modelled as an error result. A
parsed snapshot is adopted only when its stored week matches the current
week. -/
def loadAnalytics (initial : Analytics) (currentWeek : String)
    (stored : Option (Option Analytics)) : Except Unit Analytics :=
  match stored with
  | none => Except.ok initial
  | some none => Except.error ()
  | some (some a) =>
    Except.ok (if a.weekStartDate = currentWeek then a else initial)

/-- The positional filter of handleRemoveFile, which keeps exactly the
records whose running index in the full working list differs from the removal
index. -/
def filterIdxNe (idx : Nat) : List FileRecord → Nat → List FileRecord
  | [], _ => []
  | f :: rest, i =>
    if i = idx then filterIdxNe idx rest (i + 1)
    else f :: filterIdxNe idx rest (i + 1)

/-- The handleRemoveFile handler restricted to its record-list effect: it
filters the full working list by position. -/
def handleRemoveFile (files : List FileRecord) (idx : Nat) : List FileRecord :=
  filterIdxNe idx files 0

example : extOf "a.png" = "png" := by decide
example : extOf "README" = "README" := by decide
example : extOf "archive.tar.gz" = "gz" := by decide
example : mkNewName "B" 0 "p.png" = "B_1.png" := by decide
example : isImageType "image/pdf" = true := by decide
example : isDocumentType "image/pdf" = true := by decide
example : jsIncludes "text/plain" "text/plain" = true := by decide

/-- A sample admitted image record. -/
def imgPng : FileRecord :=
  { name := "p.png", size := 4, type := "image/png", lastModified := 0,
    content := some [7, 8], preview := true, newName := none }

/-- A sample admitted document record. -/
def docPdf : FileRecord :=
  { name := "d.pdf", size := 3, type := "application/pdf", lastModified := 0,
    content := some [9], preview := false, newName := none }

/-- A sample record whose original name contains no dot. -/
def recNoDot : FileRecord :=
  { name := "README", size := 2, type := "text/plain", lastModified := 0,
    content := some [1], preview := false, newName := none }

/-- A sample record whose type both starts with the image marker and contains
the pdf marker. -/
def recImagePdf : FileRecord :=
  { name := "x.q", size := 1, type := "image/pdf", lastModified := 0,
    content := some [1], preview := true, newName := none }

/-- A sample ledger entry. -/
def entry0 : HistoryEntry :=
  { timestamp := 0, oldName := "a", newName := "b", fileType := "t" }

/-- Two sample records carrying the same assigned name. -/
def dupA : FileRecord :=
  { name := "a.png", size := 1, type := "image/png", lastModified := 0,
    content := some [1], preview := true, newName := some "N.png" }

/-- Second of the two sample records carrying the same assigned name. -/
def dupB : FileRecord :=
  { name := "b.png", size := 1, type := "image/png", lastModified := 0,
    content := some [2], preview := true, newName := some "N.png" }

/-- A sample raw input file with a distinguishing numeric name. -/
def mkRaw (n : Nat) : RawFile :=
  { name := "f" ++ Nat.repr n ++ ".png", size := 1, type := "image/png",
    lastModified := 0, content := some [] }

/-- A batch of fifteen small raw files. -/
def batchA : List RawFile := (List.range 15).map mkRaw

/-- A second batch of fifteen small raw files. -/
def batchB : List RawFile := (List.range 15).map (fun n => mkRaw (n + 15))

/-- A sample default analytics snapshot. -/
def analytics0 : Analytics :=
  { weekStartDate := "2026-10-05", totalFiles := 0, totalRenames := 0,
    fileTypes := [], averageFileSize := 0, totalDownloads := 0 }

/-- Claim C1: evaluation of the code at the failing input. With a prior
ledger of 49 entries, renaming a filtered selection of two records yields a
ledger of 51 entries: the rename prepends the two new entries but truncates
only the previous entries to 49, so the documented cap of 50 is exceeded. -/
theorem claim1_history_exceeds_cap :
    (handleRename [imgPng, docPdf] (fun _ => true) "B"
        (List.replicate 49 entry0) 5).2.length = 51 ∧
    50 < (handleRename [imgPng, docPdf] (fun _ => true) "B"
        (List.replicate 49 entry0) 5).2.length := by
  constructor
  · decide
  · decide

/-- Claim C3: evaluation of the code at the failing input. The count check of
onDrop reads the record list captured by the closure at mount, which is empty
and never updated because the callback has an empty dependency array, so two
successive drops of fifteen files are both admitted and the working list
reaches thirty records, exceeding the documented maximum of twenty. -/
theorem claim3_count_limit_bypass :
    ((onDrop [] (onDrop [] [] batchA).1 batchB).1).length = 30 ∧
    MAX_FILES < ((onDrop [] (onDrop [] [] batchA).1 batchB).1).length := by
  constructor
  · decide
  · decide

/-- Claim C6: evaluation of the code at the failing input. The history load
swallows a throwing parse and keeps the empty ledger, but the analytics load
has no try/catch, so a stored analytics value that fails to parse makes the
load effect propagate the error instead of degrading to the default
snapshot. -/
theorem claim6_analytics_load_error :
    loadHistory (some none) = [] ∧ loadHistory none = [] ∧
    loadAnalytics analytics0 "2026-10-05" (some none) = Except.error () :=
  ⟨rfl, rfl, rfl⟩

/-- Claim C2 counterexample: renaming the single record named README, whose
name contains no dot, assigns the name with the whole original name in the
extension position, not the empty extension that the claim states. -/
theorem claim2_counterexample :
    ((handleRename [recNoDot] (fun _ => true) "B" [] 0).1.map
        (fun f => f.newName)) = [some "B_1.README"] ∧
    (some "B_1.README" : Option String) ≠ some "B_1." := by
  constructor
  · decide
  · decide

/-- Claim C4 counterexample: a record whose type is image/pdf lies in both
the images group and the documents group, so it appears in two of the five
groups, not exactly one, and no first-match precedence is applied. -/
theorem claim4_counterexample :
    groupsContaining (fileGroups [recImagePdf]) recImagePdf = 2 := by decide

/-- Claim C5 counterexample. First: with a document and an image in the
working list and the images filter active, the image record without an
assigned name enters the archive as B_1.png, the formula indexed by its
position in the filtered selection, whereas indexing by its position in the
full working set, as the claim states, would give B_2.png. Second: two
selected records carrying the same assigned name produce a single archive
entry, not one entry per record, because a later entry under an existing name
replaces the stored bytes. -/
theorem claim5_counterexample :
    (handleDownload [docPdf, imgPng] isImageType "B").2 =
      Except.ok [("B_1.png", [7, 8])] ∧
    ("B_1.png" : String) ≠ "B_2.png" ∧
    (handleDownload [dupA, dupB] (fun _ => true) "B").2 =
      Except.ok [("N.png", [2])] := by
  refine ⟨rfl, by decide, rfl⟩

/-- The positional filter of handleRemoveFile keeps the prefix before the
removal index and the suffix after it, relative to the running counter. -/
theorem filterIdxNe_eq (idx : Nat) :
    ∀ (l : List FileRecord) (c : Nat),
      filterIdxNe idx l c =
        if idx < c then l else l.take (idx - c) ++ l.drop (idx - c + 1) := by
  intro l
  induction l with
  | nil =>
    intro c
    simp [filterIdxNe]
  | cons f rest ih =>
    intro c
    by_cases hc : c = idx
    · subst hc
      simp only [filterIdxNe, if_pos rfl, ih (c + 1)]
      rw [if_pos (Nat.lt_succ_self c), if_neg (Nat.lt_irrefl c)]
      simp
    · simp only [filterIdxNe, if_neg hc, ih (c + 1)]
      rcases Nat.lt_or_ge idx c with hlt | hge
      · rw [if_pos (Nat.lt_succ_of_lt hlt), if_pos hlt]
      · have hgt : c < idx := by omega
        rw [if_neg (by omega), if_neg (by omega)]
        have h1 : idx - c = (idx - (c + 1)) + 1 := by omega
        rw [h1, List.take_succ_cons, List.drop_succ_cons]
        simp

/-- Claim C10: handleRemoveFile interprets its index against the full working
list, not against the filtered selection the visible grid passes indices of:
removing index i deletes exactly the record at position i of the full list,
keeps every other record with all of its fields unchanged and in order, and
shrinks the list by exactly one. -/
theorem claim10_remove_by_full_index (files : List FileRecord) (i : Nat)
    (hi : i < files.length) :
    handleRemoveFile files i = files.take i ++ files.drop (i + 1) ∧
    (handleRemoveFile files i).length = files.length - 1 ∧
    (∀ j, j < i → (handleRemoveFile files i)[j]? = files[j]?) ∧
    (∀ j, i ≤ j → (handleRemoveFile files i)[j]? = files[j + 1]?) := by
  have hmin : (files.take i).length = i := by
    rw [List.length_take]
    omega
  have he : handleRemoveFile files i = files.take i ++ files.drop (i + 1) := by
    rw [handleRemoveFile, filterIdxNe_eq]
    simp
  refine ⟨he, ?_, ?_, ?_⟩
  · rw [he]
    simp only [List.length_append, List.length_take, List.length_drop]
    omega
  · intro j hj
    rw [he, List.getElem?_append_left (by rw [hmin]; omega),
      List.getElem?_take_of_lt hj]
  · intro j hj
    rw [he, List.getElem?_append_right (by rw [hmin]; omega),
      List.getElem?_drop, hmin]
    have : i + 1 + (j - i) = j + 1 := by omega
    rw [this]

/-- A three-record sample working list. -/
def demo3 : List FileRecord := [imgPng, docPdf, recNoDot]

/-- Witness for claim C10 at a concrete input. -/
theorem claim10_remove_by_full_index_witness :
    1 < demo3.length ∧
    (handleRemoveFile demo3 1 = demo3.take 1 ++ demo3.drop (1 + 1) ∧
     (handleRemoveFile demo3 1).length = demo3.length - 1 ∧
     (∀ j, j < 1 → (handleRemoveFile demo3 1)[j]? = demo3[j]?) ∧
     (∀ j, 1 ≤ j → (handleRemoveFile demo3 1)[j]? = demo3[j + 1]?)) :=
  ⟨by decide, claim10_remove_by_full_index demo3 1 (by decide)⟩

/-- A character-list leading-segment test with a non-empty pattern forces the
head of the list. -/
theorem charsPfx_head {a : Char} {p l : List Char}
    (h : charsPfx (a :: p) l = true) : ∃ rest, l = a :: rest := by
  cases l with
  | nil => simp [charsPfx] at h
  | cons b s =>
    simp only [charsPfx, Bool.and_eq_true, beq_iff_eq] at h
    exact ⟨s, by rw [h.1]⟩

/-- Two non-empty patterns that both lead the same list start with the same
character. -/
theorem charsPfx_head_eq {a b : Char} {p q l : List Char}
    (h1 : charsPfx (a :: p) l = true) (h2 : charsPfx (b :: q) l = true) :
    a = b := by
  obtain ⟨r1, e1⟩ := charsPfx_head h1
  obtain ⟨r2, e2⟩ := charsPfx_head h2
  rw [e1] at e2
  rw [List.cons.injEq] at e2
  exact e2.1

/-- No type string lies in both the images and the videos group. -/
theorem image_video_false {t : String} (h1 : isImageType t = true)
    (h2 : isVideoType t = true) : False := by
  have c1 : charsPfx ('i' :: ['m', 'a', 'g', 'e', '/']) t.toList = true := h1
  have c2 : charsPfx ('v' :: ['i', 'd', 'e', 'o', '/']) t.toList = true := h2
  have hc := charsPfx_head_eq c1 c2
  exact absurd hc (by decide)

/-- No type string lies in both the images and the audio group. -/
theorem image_audio_false {t : String} (h1 : isImageType t = true)
    (h2 : isAudioType t = true) : False := by
  have c1 : charsPfx ('i' :: ['m', 'a', 'g', 'e', '/']) t.toList = true := h1
  have c2 : charsPfx ('a' :: ['u', 'd', 'i', 'o', '/']) t.toList = true := h2
  have hc := charsPfx_head_eq c1 c2
  exact absurd hc (by decide)

/-- No type string lies in both the videos and the audio group. -/
theorem video_audio_false {t : String} (h1 : isVideoType t = true)
    (h2 : isAudioType t = true) : False := by
  have c1 : charsPfx ('v' :: ['i', 'd', 'e', 'o', '/']) t.toList = true := h1
  have c2 : charsPfx ('a' :: ['u', 'd', 'i', 'o', '/']) t.toList = true := h2
  have hc := charsPfx_head_eq c1 c2
  exact absurd hc (by decide)

/-- Claim C4 as amended: classification is a total cover without first-match
precedence. Every record of the list appears in at least one group, the three
media-prefix groups are pairwise disjoint, and the others group is the exact
complement of the four tests, but the documents test is applied independently
of the prefix tests, so a record lies in exactly two groups when its type both
starts with a media prefix and contains a document marker, and in exactly one
group otherwise. -/
theorem claim4_partition (files : List FileRecord) (r : FileRecord)
    (hr : r ∈ files) :
    groupsContaining (fileGroups files) r =
      if (isImageType r.type || isVideoType r.type || isAudioType r.type) &&
          isDocumentType r.type then 2 else 1 := by
  have hmemI : (r ∈ (fileGroups files).images) ↔ isImageType r.type = true := by
    simp [fileGroups, List.mem_filter, hr]
  have hmemV : (r ∈ (fileGroups files).videos) ↔ isVideoType r.type = true := by
    simp [fileGroups, List.mem_filter, hr]
  have hmemA : (r ∈ (fileGroups files).audio) ↔ isAudioType r.type = true := by
    simp [fileGroups, List.mem_filter, hr]
  have hmemD : (r ∈ (fileGroups files).documents) ↔
      isDocumentType r.type = true := by
    simp [fileGroups, List.mem_filter, hr]
  have hmemO : (r ∈ (fileGroups files).others) ↔ isOtherType r.type = true := by
    simp [fileGroups, List.mem_filter, hr]
  rw [groupsContaining, if_congr hmemI rfl rfl, if_congr hmemV rfl rfl,
    if_congr hmemA rfl rfl, if_congr hmemD rfl rfl, if_congr hmemO rfl rfl]
  cases hI : isImageType r.type <;> cases hV : isVideoType r.type <;>
    cases hA : isAudioType r.type <;> cases hD : isDocumentType r.type <;>
    simp [isOtherType, hI, hV, hA, hD]
  all_goals first
    | exact (image_video_false hI hV).elim
    | exact (image_audio_false hI hA).elim
    | exact (video_audio_false hV hA).elim

/-- Witness for claim C4 at a concrete input. -/
theorem claim4_partition_witness :
    recNoDot ∈ demo3 ∧
    groupsContaining (fileGroups demo3) recNoDot =
      (if (isImageType recNoDot.type || isVideoType recNoDot.type ||
          isAudioType recNoDot.type) && isDocumentType recNoDot.type
        then 2 else 1) :=
  ⟨by decide, claim4_partition demo3 recNoDot (by decide)⟩

/-- With a non-empty base name and a non-empty filtered selection,
handleRename performs the assigned-name pass. -/
theorem handleRename_files (files : List FileRecord) (pred : String → Bool)
    (base : String) (prev : List HistoryEntry) (now : Nat)
    (hb : base ≠ "") (hne : files.filter (byType pred) ≠ []) :
    (handleRename files pred base prev now).1 = renameWalk base pred files 0 := by
  rw [handleRename, if_neg hb, if_neg (by simpa using hne)]

/-- The filtered selection of the renamed list is the positional assignment
over the filtered selection of the original list. -/
theorem renameWalk_filter (base : String) (pred : String → Bool) :
    ∀ (l : List FileRecord) (c : Nat),
      (renameWalk base pred l c).filter (byType pred) =
        assignFrom base c (l.filter (byType pred)) := by
  intro l
  induction l with
  | nil =>
    intro c
    simp [renameWalk, assignFrom]
  | cons f rest ih =>
    intro c
    by_cases hp : pred f.type
    · simp only [renameWalk, if_pos hp, List.filter_cons]
      have hpu : byType pred (renameUpdate base c f) = true := hp
      have hpf : byType pred f = true := hp
      rw [if_pos hpu, if_pos hpf, assignFrom, ih (c + 1)]
    · simp only [renameWalk, if_neg hp, List.filter_cons]
      have hpu : byType pred f = false := by
        simp [byType, hp]
      rw [hpu, if_neg Bool.false_ne_true]
      exact ih c

/-- Element access into the positional assignment. -/
theorem assignFrom_getElem (base : String) :
    ∀ (l : List FileRecord) (c i : Nat),
      (assignFrom base c l)[i]? =
        l[i]?.map (fun f => renameUpdate base (c + i) f) := by
  intro l
  induction l with
  | nil =>
    intro c i
    simp [assignFrom]
  | cons f rest ih =>
    intro c i
    cases i with
    | zero => simp [assignFrom]
    | succ j =>
      simp only [assignFrom, List.getElem?_cons_succ, ih (c + 1) j]
      have : c + 1 + j = c + (j + 1) := by omega
      rw [this]

/-- The positional assignment is empty exactly on the empty selection. -/
theorem assignFrom_eq_nil_iff (base : String) (c : Nat)
    (l : List FileRecord) : assignFrom base c l = [] ↔ l = [] := by
  cases l with
  | nil => simp [assignFrom]
  | cons f rest => simp [assignFrom]

/-- Claim C2 as amended: for a non-empty base name and a non-empty filtered
selection, the record at zero-based position i of the filtered selection is
assigned the name of the base, an underscore, the one-based index, a dot, and
the last dot-separated component of the original name, which is the substring
after the last dot when the name contains a dot and the entire original name
when it contains none. -/
theorem claim2_assigned_names (files : List FileRecord) (pred : String → Bool)
    (base : String) (prev : List HistoryEntry) (now : Nat) (i : Nat)
    (hb : base ≠ "") (hne : files.filter (byType pred) ≠ []) :
    ((handleRename files pred base prev now).1.filter (byType pred))[i]? =
      (files.filter (byType pred))[i]?.map
        (fun f => { f with newName := some (mkNewName base i f.name) }) := by
  rw [handleRename_files files pred base prev now hb hne, renameWalk_filter,
    assignFrom_getElem]
  simp [renameUpdate]

/-- Witness for claim C2 at a concrete input. -/
theorem claim2_assigned_names_witness :
    ("B" : String) ≠ "" ∧
    [recNoDot, imgPng].filter (byType (fun _ => true)) ≠ [] ∧
    (((handleRename [recNoDot, imgPng] (fun _ => true) "B" [] 0).1.filter
        (byType (fun _ => true)))[1]? =
      ([recNoDot, imgPng].filter (byType (fun _ => true)))[1]?.map
        (fun f => { f with newName := some (mkNewName "B" 1 f.name) })) :=
  ⟨by decide, by decide,
    claim2_assigned_names [recNoDot, imgPng] (fun _ => true) "B" [] 0 1
      (by decide) (by decide)⟩

/-- The assigned-name pass is idempotent: a second pass recomputes every
selected record to the same value, because the pass changes neither the
original name nor the type of any record. -/
theorem renameWalk_idem (base : String) (pred : String → Bool) :
    ∀ (l : List FileRecord) (c : Nat),
      renameWalk base pred (renameWalk base pred l c) c =
        renameWalk base pred l c := by
  intro l
  induction l with
  | nil =>
    intro c
    simp [renameWalk]
  | cons f rest ih =>
    intro c
    by_cases hp : pred f.type
    · have hpu : pred (renameUpdate base c f).type = true := hp
      simp only [renameWalk, if_pos hp, if_pos hpu, ih (c + 1)]
      rfl
    · have hpu : pred f.type = false := by simp [hp]
      simp only [renameWalk, if_neg hp, ih c]

/-- Claim C8: the rename operation is deterministic and idempotent. Running
the rename twice with the same base name and the same filter yields exactly
the record list of the first run, and the resulting record list does not
depend on the prior ledger or on the clock, so two runs over identical state
produce identical names. -/
theorem claim8_rename_idempotent (files : List FileRecord)
    (pred : String → Bool) (base : String) (prev prev2 : List HistoryEntry)
    (now now2 : Nat)
    (hb : base ≠ "") (hne : files.filter (byType pred) ≠ []) :
    (handleRename (handleRename files pred base prev now).1 pred base
        prev2 now2).1 = (handleRename files pred base prev now).1 ∧
    (handleRename files pred base prev now).1 =
      (handleRename files pred base prev2 now2).1 := by
  have h1 := handleRename_files files pred base prev now hb hne
  have hne2 : (renameWalk base pred files 0).filter (byType pred) ≠ [] := by
    rw [renameWalk_filter]
    intro h
    exact hne ((assignFrom_eq_nil_iff base 0 (files.filter (byType pred))).mp h)
  have h2 := handleRename_files (renameWalk base pred files 0) pred base
    prev2 now2 hb hne2
  constructor
  · rw [h1, h2, renameWalk_idem]
  · rw [h1, handleRename_files files pred base prev2 now2 hb hne]

/-- Witness for claim C8 at a concrete input. -/
theorem claim8_rename_idempotent_witness :
    ("B" : String) ≠ "" ∧
    demo3.filter (byType (fun _ => true)) ≠ [] ∧
    ((handleRename (handleRename demo3 (fun _ => true) "B" [] 0).1
        (fun _ => true) "B" [entry0] 7).1 =
      (handleRename demo3 (fun _ => true) "B" [] 0).1 ∧
     (handleRename demo3 (fun _ => true) "B" [] 0).1 =
       (handleRename demo3 (fun _ => true) "B" [entry0] 7).1) :=
  ⟨by decide, by decide,
    claim8_rename_idempotent demo3 (fun _ => true) "B" [] [entry0] 0 7
      (by decide) (by decide)⟩

/-- Adding an entry under a fresh name appends it at the end of the
archive. -/
theorem zipFile_append (z : List (String × List Nat)) (n : String)
    (c : List Nat) (h : n ∉ z.map Prod.fst) : zipFile z n c = z ++ [(n, c)] := by
  induction z with
  | nil => rfl
  | cons p rest ih =>
    obtain ⟨m, d⟩ := p
    simp only [List.map_cons, List.mem_cons] at h
    push_neg at h
    have hmn : ¬ (m = n) := fun e => h.1 e.symm
    simp only [zipFile, if_neg hmn, List.cons_append, List.cons.injEq, true_and]
    exact ih h.2

/-- The length of the positional entry list equals the selection length. -/
theorem zipEntriesSpec_length (base : String) :
    ∀ (l : List FileRecord) (i : Nat),
      (zipEntriesSpec base i l).length = l.length := by
  intro l
  induction l with
  | nil =>
    intro i
    simp [zipEntriesSpec]
  | cons f rest ih =>
    intro i
    simp [zipEntriesSpec, ih (i + 1)]

/-- Element access into the positional entry list. -/
theorem zipEntriesSpec_getElem (base : String) :
    ∀ (l : List FileRecord) (c i : Nat),
      (zipEntriesSpec base c l)[i]? =
        l[i]?.map (fun f => (archiveName base (c + i) f, f.content.getD [])) := by
  intro l
  induction l with
  | nil =>
    intro c i
    simp [zipEntriesSpec]
  | cons f rest ih =>
    intro c i
    cases i with
    | zero => simp [zipEntriesSpec]
    | succ j =>
      simp only [zipEntriesSpec, List.getElem?_cons_succ, ih (c + 1) j]
      have : c + 1 + j = c + (j + 1) := by omega
      rw [this]

/-- When every selected record reads successfully and the archive names are
pairwise distinct, the byte collection loop extends the accumulated archive by
exactly the positional entry list. -/
theorem buildZip_ok (base : String) :
    ∀ (l : List FileRecord) (i : Nat) (acc : List (String × List Nat)),
      (∀ f ∈ l, f.content.isSome) →
      ((acc ++ zipEntriesSpec base i l).map Prod.fst).Nodup →
      buildZip base l i acc = Except.ok (acc ++ zipEntriesSpec base i l) := by
  intro l
  induction l with
  | nil =>
    intro i acc hread hnd
    simp [buildZip, zipEntriesSpec]
  | cons f rest ih =>
    intro i acc hread hnd
    obtain ⟨b, hb⟩ := Option.isSome_iff_exists.mp
      (hread f (List.mem_cons_self f rest))
    have hspec : zipEntriesSpec base i (f :: rest) =
        (archiveName base i f, b) :: zipEntriesSpec base (i + 1) rest := by
      simp [zipEntriesSpec, hb]
    rw [hspec] at hnd
    have hfresh : archiveName base i f ∉ acc.map Prod.fst := by
      rw [List.map_append, List.nodup_append] at hnd
      intro hmem
      exact hnd.2.2 hmem (by simp)
    have hstep : zipFile acc (archiveName base i f) b =
        acc ++ [(archiveName base i f, b)] :=
      zipFile_append acc (archiveName base i f) b hfresh
    have hnd2 : (((acc ++ [(archiveName base i f, b)]) ++
        zipEntriesSpec base (i + 1) rest).map Prod.fst).Nodup := by
      rw [List.append_assoc]
      simpa using hnd
    simp only [buildZip, hb, hstep]
    rw [ih (i + 1) (acc ++ [(archiveName base i f, b)])
      (fun g hg => hread g (List.mem_cons_of_mem f hg)) hnd2]
    rw [hspec, List.append_assoc]
    rfl

/-- Claim C5 as amended: for a non-empty base name and a non-empty filtered
selection in which every record reads successfully and the archive entry
names are pairwise distinct, the archive build succeeds and contains one
entry per selected record in selection order, so exactly k entries for k
selected records; each entry is named by the record assigned name when one is
present (a non-empty stored name) and otherwise by the rename formula indexed
by the record position in the filtered selection, and each entry carries the
record bytes unchanged. The distinctness proviso is forced by the archive
object keying entries by name, and any single rename pass over the selection
produces distinct assigned names. -/
theorem claim5_archive (files : List FileRecord) (pred : String → Bool)
    (base : String)
    (hb : base ≠ "") (hne : files.filter (byType pred) ≠ [])
    (hread : ∀ f ∈ files.filter (byType pred), f.content.isSome)
    (hdist : ((zipEntriesSpec base 0 (files.filter (byType pred))).map
        Prod.fst).Nodup) :
    (handleDownload files pred base).2 =
      Except.ok (zipEntriesSpec base 0 (files.filter (byType pred))) ∧
    (zipEntriesSpec base 0 (files.filter (byType pred))).length =
      (files.filter (byType pred)).length ∧
    (∀ i, (zipEntriesSpec base 0 (files.filter (byType pred)))[i]? =
      (files.filter (byType pred))[i]?.map
        (fun f => (archiveName base i f, f.content.getD []))) := by
  refine ⟨?_, zipEntriesSpec_length base _ 0, ?_⟩
  · rw [handleDownload, if_neg hb, if_neg (by simpa using hne)]
    have h := buildZip_ok base (files.filter (byType pred)) 0 []
      hread (by simpa using hdist)
    simpa using h
  · intro i
    have h := zipEntriesSpec_getElem base (files.filter (byType pred)) 0 i
    simpa using h

/-- Witness for claim C5 at a concrete input. -/
theorem claim5_archive_witness :
    ("B" : String) ≠ "" ∧
    demo3.filter (byType (fun _ => true)) ≠ [] ∧
    (∀ f ∈ demo3.filter (byType (fun _ => true)), f.content.isSome) ∧
    ((zipEntriesSpec "B" 0 (demo3.filter (byType (fun _ => true)))).map
      Prod.fst).Nodup ∧
    ((handleDownload demo3 (fun _ => true) "B").2 =
      Except.ok (zipEntriesSpec "B" 0 (demo3.filter (byType (fun _ => true)))) ∧
     (zipEntriesSpec "B" 0 (demo3.filter (byType (fun _ => true)))).length =
       (demo3.filter (byType (fun _ => true))).length ∧
     (∀ i, (zipEntriesSpec "B" 0
         (demo3.filter (byType (fun _ => true))))[i]? =
       (demo3.filter (byType (fun _ => true)))[i]?.map
         (fun f => (archiveName "B" i f, f.content.getD [])))) :=
  ⟨by decide, by decide, by decide, by decide,
    claim5_archive demo3 (fun _ => true) "B" (by decide) (by decide)
      (by decide) (by decide)⟩

/-- A failing byte read aborts the collection loop at the first failing
record, with an error naming that record. -/
theorem buildZip_err (base : String) :
    ∀ (l : List FileRecord) (i : Nat) (acc : List (String × List Nat))
      (f0 : FileRecord),
      l.find? (fun f => f.content.isNone) = some f0 →
      buildZip base l i acc =
        Except.error ("Failed to process file " ++ f0.name) := by
  intro l
  induction l with
  | nil =>
    intro i acc f0 h
    simp [List.find?] at h
  | cons f rest ih =>
    intro i acc f0 h
    cases hfc : f.content with
    | none =>
      have hp : (fun g : FileRecord => g.content.isNone) f = true := by
        simp [hfc]
      rw [List.find?_cons_of_pos rest hp] at h
      have hf : f = f0 := by
        injection h
      subst hf
      simp [buildZip, hfc]
    | some b =>
      have hp : ¬ ((fun g : FileRecord => g.content.isNone) f = true) := by
        simp [hfc]
      rw [List.find?_cons_of_neg rest hp] at h
      simp only [buildZip, hfc]
      exact ih (i + 1) _ f0 h

/-- Claim C9: when the byte read of some selected record fails during archive
assembly (with a valid base name), the whole build aborts with an error
naming the first failing record, no archive value is produced, and the
admitted record list is left unchanged. -/
theorem claim9_read_failure_aborts (files : List FileRecord)
    (pred : String → Bool) (base : String) (f0 : FileRecord)
    (hb : base ≠ "")
    (hf : (files.filter (byType pred)).find? (fun f => f.content.isNone) =
      some f0) :
    (handleDownload files pred base).1 = files ∧
    (handleDownload files pred base).2 =
      Except.error ("Failed to process file " ++ f0.name) := by
  have hne : files.filter (byType pred) ≠ [] := by
    intro h
    rw [h] at hf
    simp [List.find?] at hf
  constructor
  · rw [handleDownload, if_neg hb, if_neg (by simpa using hne)]
  · rw [handleDownload, if_neg hb, if_neg (by simpa using hne)]
    exact buildZip_err base _ 0 [] f0 hf

/-- A record whose byte read fails. -/
def recBad : FileRecord :=
  { name := "bad.bin", size := 1, type := "application/octet-stream",
    lastModified := 0, content := none, preview := false, newName := none }

/-- Witness for claim C9 at a concrete input. -/
theorem claim9_read_failure_aborts_witness :
    ("B" : String) ≠ "" ∧
    ([imgPng, recBad].filter (byType (fun _ => true))).find?
      (fun f => f.content.isNone) = some recBad ∧
    ((handleDownload [imgPng, recBad] (fun _ => true) "B").1 =
        [imgPng, recBad] ∧
     (handleDownload [imgPng, recBad] (fun _ => true) "B").2 =
       Except.error ("Failed to process file " ++ recBad.name)) :=
  ⟨by decide, by decide,
    claim9_read_failure_aborts [imgPng, recBad] (fun _ => true) "B" recBad
      (by decide) (by decide)⟩

/-- A record above the size limit is never among the records admitted from
its batch: normalization preserves the size, and the admitted part of the
batch is the size-filtered part. -/
theorem oversized_not_in_kept (accepted : List RawFile) (f : RawFile)
    (hsz : MAX_FILE_SIZE < f.size) :
    normalizeFile f ∉ (accepted.filter
      (fun g => decide (g.size ≤ MAX_FILE_SIZE))).map normalizeFile := by
  intro hmem
  obtain ⟨g, hg, he⟩ := List.mem_map.mp hmem
  have hgs : g.size ≤ MAX_FILE_SIZE := by
    have h := (List.mem_filter.mp hg).2
    simpa using h
  have hsize : g.size = f.size := congrArg FileRecord.size he
  omega

/-- Claim C7: under a passing count check, onDrop admits exactly the size
respecting part of the batch after the current records: a file of exactly the
100 MiB limit is admitted, a file above the limit is never admitted, the
oversized files are reported by name in the error banner, and the remaining
files of the batch are still admitted. -/
theorem claim7_size_policy (captured current : List FileRecord)
    (accepted : List RawFile)
    (hcount : captured.length + accepted.length ≤ MAX_FILES) :
    (onDrop captured current accepted).1 =
      current ++ (accepted.filter
        (fun f => decide (f.size ≤ MAX_FILE_SIZE))).map normalizeFile ∧
    (∀ f ∈ accepted, f.size = MAX_FILE_SIZE →
      normalizeFile f ∈ (onDrop captured current accepted).1) ∧
    (∀ f ∈ accepted, MAX_FILE_SIZE < f.size →
      normalizeFile f ∉ (accepted.filter
        (fun g => decide (g.size ≤ MAX_FILE_SIZE))).map normalizeFile) ∧
    (accepted.filter (fun f => decide (MAX_FILE_SIZE < f.size)) ≠ [] →
      (onDrop captured current accepted).2 =
        some (sizeLimitMsg (accepted.filter
          (fun f => decide (MAX_FILE_SIZE < f.size))))) := by
  have hno : ¬ (MAX_FILES < captured.length + accepted.length) := by omega
  have hfirst : (onDrop captured current accepted).1 =
      current ++ (accepted.filter
        (fun f => decide (f.size ≤ MAX_FILE_SIZE))).map normalizeFile := by
    rw [onDrop, if_neg hno]
    by_cases hov :
        (accepted.filter (fun f => decide (MAX_FILE_SIZE < f.size))).isEmpty
    · rw [if_pos hov]
      have hall : accepted.filter (fun f => decide (f.size ≤ MAX_FILE_SIZE)) =
          accepted := by
        rw [List.filter_eq_self]
        intro g hg
        have hng : ¬ (MAX_FILE_SIZE < g.size) := by
          intro hlt
          have : g ∈ accepted.filter
              (fun f => decide (MAX_FILE_SIZE < f.size)) :=
            List.mem_filter.mpr ⟨hg, by simpa using hlt⟩
          rw [List.isEmpty_iff.mp hov] at this
          simp at this
        simpa using Nat.le_of_not_lt hng
      rw [hall]
    · rw [if_neg hov]
      by_cases hk :
          (accepted.filter (fun f => decide (f.size ≤ MAX_FILE_SIZE))).isEmpty
      · rw [if_pos hk, List.isEmpty_iff.mp hk]
        simp
      · rw [if_neg hk]
  refine ⟨hfirst, ?_, fun f hf hsz => oversized_not_in_kept accepted f hsz, ?_⟩
  · intro f hf hsz
    rw [hfirst]
    refine List.mem_append_right _ (List.mem_map.mpr ⟨f, ?_, rfl⟩)
    exact List.mem_filter.mpr ⟨hf, by simp [hsz]⟩
  · intro hov
    rw [onDrop, if_neg hno]
    have hov2 : ¬ (accepted.filter
        (fun f => decide (MAX_FILE_SIZE < f.size))).isEmpty := by
      simpa using hov
    rw [if_neg hov2]
    by_cases hk :
        (accepted.filter (fun f => decide (f.size ≤ MAX_FILE_SIZE))).isEmpty
    · rw [if_pos hk]
    · rw [if_neg hk]

/-- A raw file of exactly the size limit. -/
def rawAtLimit : RawFile :=
  { name := "edge.bin", size := 100 * 1024 * 1024, type := "application/json",
    lastModified := 0, content := some [3] }

/-- A raw file one byte above the size limit. -/
def rawOverLimit : RawFile :=
  { name := "big.bin", size := 100 * 1024 * 1024 + 1,
    type := "application/json", lastModified := 0, content := some [4] }

/-- Witness for claim C7 at a concrete input. -/
theorem claim7_size_policy_witness :
    ([] : List FileRecord).length +
      [rawOverLimit, rawAtLimit, mkRaw 0].length ≤ MAX_FILES ∧
    ((onDrop [] [] [rawOverLimit, rawAtLimit, mkRaw 0]).1 =
      [] ++ ([rawOverLimit, rawAtLimit, mkRaw 0].filter
        (fun f => decide (f.size ≤ MAX_FILE_SIZE))).map normalizeFile ∧
     (∀ f ∈ [rawOverLimit, rawAtLimit, mkRaw 0], f.size = MAX_FILE_SIZE →
       normalizeFile f ∈ (onDrop [] [] [rawOverLimit, rawAtLimit, mkRaw 0]).1) ∧
     (∀ f ∈ [rawOverLimit, rawAtLimit, mkRaw 0], MAX_FILE_SIZE < f.size →
       normalizeFile f ∉ ([rawOverLimit, rawAtLimit, mkRaw 0].filter
         (fun g => decide (g.size ≤ MAX_FILE_SIZE))).map normalizeFile) ∧
     ([rawOverLimit, rawAtLimit, mkRaw 0].filter
        (fun f => decide (MAX_FILE_SIZE < f.size)) ≠ [] →
       (onDrop [] [] [rawOverLimit, rawAtLimit, mkRaw 0]).2 =
         some (sizeLimitMsg ([rawOverLimit, rawAtLimit, mkRaw 0].filter
           (fun f => decide (MAX_FILE_SIZE < f.size)))))) :=
  ⟨by decide,
    claim7_size_policy [] [] [rawOverLimit, rawAtLimit, mkRaw 0] (by decide)⟩

end UltraRename
